import Mathlib

/-!
Verification of the T editor core (package edit, buffer, re1) against its
natural-language specification.  Each Go function under scrutiny is given a
shallow embedding as an executable Lean definition, translated from the
source; spec-side definitions are named with a Spec suffix.  Rune offsets
are modelled as integers (Go int64), runes as integers (Go int32 values),
and buffer contents as lists.
-/

namespace T

/-- The recoverable / fatal error kinds of the edit package. -/
inductive Err where
  | addressOutOfRange
  | countErr
  | eofErr
  | noMatch
  | lineOutOfRange
  | badMark (c : Char)
  | runeOutOfRange
  | notInSequence
  | badLog
  | badMarkEnd
  | rangeErr
  | fuelOut
  deriving DecidableEq

/-- A half-open range of rune offsets, as in type addr of the edit package
(fields from/to; from is renamed frm because from is reserved in Lean). -/
structure addr where
  frm : ℤ
  to' : ℤ
  deriving DecidableEq

namespace addr

/-- addr.size from the source: the number of runes in the range. -/
def size (a : addr) : ℤ := a.to' - a.frm

/-- addr.contains from the source. -/
def contains (a : addr) (p : ℤ) : Prop := a.frm ≤ p ∧ p < a.to'

instance (a : addr) (p : ℤ) : Decidable (a.contains p) :=
  inferInstanceAs (Decidable (_ ∧ _))

theorem frm_mk (x y : ℤ) : (addr.mk x y).frm = x := rfl

theorem to_mk (x y : ℤ) : (addr.mk x y).to' = y := rfl

/-- addr.update from the source (part_000 lines 58-81): clip a against b
unless b is entirely within a, then shift by the size change d = n - b.size. -/
def update (a b : addr) (n : ℤ) : addr :=
  let a1 :=
    if a.frm ≥ b.frm ∨ b.to' > a.to' then
      let f := if b.contains a.frm then b.to' else a.frm
      let t := if b.contains (a.to' - 1) then b.frm else a.to'
      let t := if f > t then f else t
      addr.mk f t
    else a
  let d := n - b.size
  let t2 := if a1.to' ≥ b.to' then a1.to' + d else a1.to'
  let f2 := if a1.frm ≥ b.to' then a1.frm + d else a1.frm
  addr.mk f2 t2

end addr

/-- The update rule exactly as the specification words it (two steps applied
in order; step 1 is skipped when a.from < b.from and b.to' ≤ a.to'). -/
def updateSpec (a b : addr) (n : ℤ) : addr :=
  let a1 :=
    if ¬(a.frm < b.frm ∧ b.to' ≤ a.to') then
      let f := if b.frm ≤ a.frm ∧ a.frm < b.to' then b.to' else a.frm
      let t := if b.frm ≤ a.to' - 1 ∧ a.to' - 1 < b.to' then b.frm else a.to'
      let t := if f > t then f else t
      addr.mk f t
    else a
  let d := n - b.size
  let t2 := if a1.to' ≥ b.to' then a1.to' + d else a1.to'
  let f2 := if a1.frm ≥ b.to' then a1.frm + d else a1.frm
  addr.mk f2 t2

set_option maxHeartbeats 1000000 in
/-- C1: for ranges a and b (each with 0 ≤ from ≤ to) and every count n ≥ 0,
addr.update returns exactly the range computed by the specification's
two steps applied in order (clip unless b is strictly inside a, then shift
the endpoints at or beyond b.to' by d = n - b.size()). -/
theorem update_matches_spec (a b : addr) (n : ℤ)
    (ha : 0 ≤ a.frm ∧ a.frm ≤ a.to') (hb : 0 ≤ b.frm ∧ b.frm ≤ b.to')
    (hn : 0 ≤ n) :
    a.update b n = updateSpec a b n := by
  obtain ⟨af, at'⟩ := a
  obtain ⟨bf, bt⟩ := b
  simp only [addr.update, updateSpec, addr.contains, addr.size,
    apply_ite addr.frm, apply_ite addr.to', addr.frm_mk, addr.to_mk] at *
  split_ifs <;> simp only [addr.mk.injEq] <;> omega

/-- Witness for update_matches_spec at a = [1,5), b = [2,3), n = 4. -/
theorem update_matches_spec_witness :
    (0 ≤ (1 : ℤ) ∧ (1 : ℤ) ≤ 5) ∧ (0 ≤ (2 : ℤ) ∧ (2 : ℤ) ≤ 3) ∧ 0 ≤ (4 : ℤ) ∧
      (addr.mk 1 5).update (addr.mk 2 3) 4 = updateSpec (addr.mk 1 5) (addr.mk 2 3) 4 :=
  ⟨by decide, by decide, by decide,
    update_matches_spec (addr.mk 1 5) (addr.mk 2 3) 4 (by decide) (by decide) (by decide)⟩

set_option maxHeartbeats 1000000 in
/-- C2: for ranges a and b inside a buffer of the given size and a count
n ≥ 0, a.update(b, n) is a valid range: from ≤ to and both endpoints lie in
[0, size'] with size' = size + (n - b.size()).  Moreover the part of a
outside b is preserved: every offset p of a left of b stays inside the
updated range, and every offset p of a at or beyond b.to' moves to p + d
inside the updated range. -/
theorem update_valid_and_preserves (a b : addr) (n size : ℤ)
    (ha : 0 ≤ a.frm ∧ a.frm ≤ a.to' ∧ a.to' ≤ size)
    (hb : 0 ≤ b.frm ∧ b.frm ≤ b.to' ∧ b.to' ≤ size)
    (hn : 0 ≤ n) :
    ((a.update b n).frm ≤ (a.update b n).to' ∧
      0 ≤ (a.update b n).frm ∧ (a.update b n).to' ≤ size + (n - b.size)) ∧
    (∀ p : ℤ, a.frm ≤ p → p < a.to' →
      (p < b.frm → (a.update b n).frm ≤ p ∧ p < (a.update b n).to') ∧
      (b.to' ≤ p →
        (a.update b n).frm ≤ p + (n - b.size) ∧ p + (n - b.size) < (a.update b n).to')) := by
  obtain ⟨af, at'⟩ := a
  obtain ⟨bf, bt⟩ := b
  obtain ⟨ha0, ha1, ha2⟩ := ha
  obtain ⟨hb0, hb1, hb2⟩ := hb
  simp only [addr.frm_mk, addr.to_mk] at ha0 ha1 ha2 hb0 hb1 hb2
  constructor
  · simp only [addr.update, addr.contains, addr.size,
      apply_ite addr.frm, apply_ite addr.to', addr.frm_mk, addr.to_mk]
    split_ifs <;> omega
  · intro p hp1 hp2
    simp only [addr.frm_mk, addr.to_mk] at hp1 hp2
    simp only [addr.update, addr.contains, addr.size,
      apply_ite addr.frm, apply_ite addr.to', addr.frm_mk, addr.to_mk]
    split_ifs <;> omega

/-- Witness for update_valid_and_preserves at a = [1,5), b = [2,3), n = 4,
size = 6. -/
theorem update_valid_and_preserves_witness :
    (0 ≤ (1 : ℤ) ∧ (1 : ℤ) ≤ 5 ∧ (5 : ℤ) ≤ 6) ∧
    (0 ≤ (2 : ℤ) ∧ (2 : ℤ) ≤ 3 ∧ (3 : ℤ) ≤ 6) ∧ 0 ≤ (4 : ℤ) ∧
    (((addr.mk 1 5).update (addr.mk 2 3) 4).frm ≤ ((addr.mk 1 5).update (addr.mk 2 3) 4).to' ∧
      0 ≤ ((addr.mk 1 5).update (addr.mk 2 3) 4).frm ∧
      ((addr.mk 1 5).update (addr.mk 2 3) 4).to' ≤ 6 + (4 - (addr.mk 2 3).size)) ∧
    (∀ p : ℤ, (1 : ℤ) ≤ p → p < 5 →
      (p < 2 → ((addr.mk 1 5).update (addr.mk 2 3) 4).frm ≤ p ∧
        p < ((addr.mk 1 5).update (addr.mk 2 3) 4).to') ∧
      ((3 : ℤ) ≤ p →
        ((addr.mk 1 5).update (addr.mk 2 3) 4).frm ≤ p + (4 - (addr.mk 2 3).size) ∧
        p + (4 - (addr.mk 2 3).size) < ((addr.mk 1 5).update (addr.mk 2 3) 4).to')) :=
  ⟨by decide, by decide, by decide,
    update_valid_and_preserves (addr.mk 1 5) (addr.mk 2 3) 4 6
      (by decide) (by decide) (by decide)⟩

/-! ### Simple addresses and reversal (part_000) -/

/-- Two's-complement wrap of an integer into the Go int64 range, used to
model Go integer arithmetic where overflow can occur. -/
def wrap64 (x : ℤ) : ℤ := (x + 2 ^ 63) % 2 ^ 64 - 2 ^ 63

/-- Go int64 negation (wraps on overflow at the minimum value). -/
def negInt64 (x : ℤ) : ℤ := wrap64 (-x)

/-- The simple address forms of the edit package: dotAddr, endAddr,
markAddr, runeAddr, lineAddr and reAddr (the regular expression held as
its delimited rune text). -/
inductive SAddr where
  | dot
  | ends
  | mark (r : Char)
  | runeA (n : ℤ)
  | lineA (neg : Bool) (n : ℕ)
  | reA (rev : Bool) (re : List Char)
  deriving DecidableEq

namespace SAddr

/-- The reverse method of each simple address form, from the source:
dotAddr, endAddr and markAddr reverse to themselves; runeAddr n reverses
to runeAddr (-n); lineAddr and reAddr flip their direction flag. -/
def reverse : SAddr → SAddr
  | dot => dot
  | ends => ends
  | mark r => mark r
  | runeA n => runeA (negInt64 n)
  | lineA neg n => lineA (!neg) n
  | reA rev re => reA (!rev) re

/-- A simple address as it occurs at runtime: the rune offset stored by a
runeAddr is a Go int64. -/
def wf : SAddr → Prop
  | runeA n => -(2 ^ 63) ≤ n ∧ n < 2 ^ 63
  | _ => True

end SAddr

/-- C10: reversal of simple addresses is an involution: for every simple
address (dot, end, mark, rune, line or regexp address) whose stored rune
offset is a Go int64, reversing twice gives back the original address.
(The rune case holds even at the minimum int64, where Go negation wraps to
itself.) -/
theorem saddr_reverse_involution (a : SAddr) (h : a.wf) :
    a.reverse.reverse = a := by
  cases a <;> simp only [SAddr.reverse, Bool.not_not]
  case runeA n =>
    simp only [SAddr.wf] at h
    simp only [SAddr.runeA.injEq, negInt64, wrap64]
    omega

/-- Witness for saddr_reverse_involution at the rune address #5. -/
theorem saddr_reverse_involution_witness :
    (SAddr.runeA 5).wf ∧ (SAddr.runeA 5).reverse.reverse = SAddr.runeA 5 :=
  ⟨by constructor <;> decide, saddr_reverse_involution (SAddr.runeA 5) (by constructor <;> decide)⟩

/-! ### Editor.Close (buffer.go, the second half of bench_test.go) -/

namespace Editor

/-- The loop of Editor.Close: find the editor in the buffer's editor list;
on success return the new list.  Go's append(eds[:i], eds[:i+1]...)
evaluates to take i eds ++ take (i+1) eds.  The argument full is the whole
list, rest the part not yet scanned, i the current index.  A none result
is the "already closed" error. -/
def closeGo : List ℕ → ℕ → ℕ → List ℕ → Option (List ℕ)
  | [], _, _, _ => none
  | e :: rest, ed, i, full =>
    if e = ed then some (full.take i ++ full.take (i + 1))
    else closeGo rest ed (i + 1) full

/-- Editor.Close from the source, modelling each editor by its numeric id
and the buffer state by its list of live editors. -/
def close (eds : List ℕ) (ed : ℕ) : Option (List ℕ) := closeGo eds ed 0 eds

end Editor

/-- C5 (code bug): closing a registered editor returns success (the some
result models a nil error, and the pending journal is closed on that path),
but the editor is NOT removed from the buffer's editor list: the source
splices with append(eds[:i], eds[:i+1]...) instead of
append(eds[:i], eds[i+1:]...).  With a single registered editor 7 the list
afterwards still contains 7; with editors [3, 7], closing 7 yields
[3, 3, 7], which still contains 7 (and duplicates 3). -/
theorem editor_close_keeps_editor :
    Editor.close [7] 7 = some [7] ∧ 7 ∈ [7] ∧
    Editor.close [3, 7] 7 = some [3, 3, 7] ∧ 7 ∈ [3, 3, 7] := by
  refine ⟨rfl, ?_, rfl, ?_⟩ <;> decide

/-! ### re1.Regexp.Match: search with wrap (re1.go lines 493-512)

The per-start-position NFA simulation (mach.match) is kept abstract as a
function matchAt from a start offset to an optional match result; the two
for loops of Regexp.Match and the no-match handling of reAddr.whereFrom
are translated from the source. -/

/-- First loop of Regexp.Match: for i := from; i <= rs.Size(); i++,
return the first match found. -/
def matchLoop1 {α : Type} (matchAt : ℕ → Option α) (size : ℕ) (i : ℕ) : Option α :=
  if i ≤ size then
    match matchAt i with
    | some es => some es
    | none => matchLoop1 matchAt size (i + 1)
  else none
termination_by size + 1 - i
decreasing_by omega

/-- Second loop of Regexp.Match: for i := 0; i < from; i++, return the
first match found. -/
def matchLoop2 {α : Type} (matchAt : ℕ → Option α) (fr : ℕ) (i : ℕ) : Option α :=
  if i < fr then
    match matchAt i with
    | some es => some es
    | none => matchLoop2 matchAt fr (i + 1)
  else none
termination_by fr - i
decreasing_by omega

/-- Regexp.Match from the source: try start positions from..size in order,
then 0..from-1, returning the first match. -/
def matchWrap {α : Type} (matchAt : ℕ → Option α) (size fr : ℕ) : Option α :=
  match matchLoop1 matchAt size fr with
  | some es => some es
  | none => matchLoop2 matchAt fr 0

/-- The match handling of reAddr.whereFrom (part_000 lines 477-488,
forward direction): a nil match result becomes the no-match error. -/
def reWhereFrom {α : Type} (matchAt : ℕ → Option α) (size fr : ℕ) : Except Err α :=
  match matchWrap matchAt size fr with
  | none => .error .noMatch
  | some m => .ok m

theorem matchLoop1_eq {α : Type} (matchAt : ℕ → Option α) (size : ℕ) :
    ∀ i, matchLoop1 matchAt size i = (List.range' i (size + 1 - i)).findSome? matchAt := by
  have key : ∀ k i, size + 1 - i = k →
      matchLoop1 matchAt size i = (List.range' i (size + 1 - i)).findSome? matchAt := by
    intro k
    induction k with
    | zero =>
      intro i h
      rw [matchLoop1]
      have hi : ¬ i ≤ size := by omega
      simp [hi, h, List.findSome?]
    | succ k ih =>
      intro i h
      rw [matchLoop1]
      have hi : i ≤ size := by omega
      have h' : size + 1 - (i + 1) = k := by omega
      rw [if_pos hi, h, List.range'_succ, List.findSome?]
      cases hm : matchAt i with
      | some es => rfl
      | none => rw [ih (i + 1) h', h']
  exact fun i => key (size + 1 - i) i rfl

theorem matchLoop2_eq {α : Type} (matchAt : ℕ → Option α) (fr : ℕ) :
    ∀ i, matchLoop2 matchAt fr i = (List.range' i (fr - i)).findSome? matchAt := by
  have key : ∀ k i, fr - i = k →
      matchLoop2 matchAt fr i = (List.range' i (fr - i)).findSome? matchAt := by
    intro k
    induction k with
    | zero =>
      intro i h
      rw [matchLoop2]
      have hi : ¬ i < fr := by omega
      simp [hi, h, List.findSome?]
    | succ k ih =>
      intro i h
      rw [matchLoop2]
      have hi : i < fr := by omega
      have h' : fr - (i + 1) = k := by omega
      rw [if_pos hi, h, List.range'_succ, List.findSome?]
      cases hm : matchAt i with
      | some es => rfl
      | none => rw [ih (i + 1) h', h']
  exact fun i => key (fr - i) i rfl

theorem findSome?_append_eq {α β : Type} (f : α → Option β) (l1 l2 : List α) :
    (l1 ++ l2).findSome? f =
      match l1.findSome? f with
      | some b => some b
      | none => l2.findSome? f := by
  induction l1 with
  | nil => simp [List.findSome?]
  | cons x xs ih =>
    simp only [List.cons_append, List.findSome?]
    cases f x <;> simp [ih]

/-- C8: Regexp.Match tries the start positions from, from+1, ..., size and
then 0, 1, ..., from-1, in that order, and returns the match found at the
first start position that matches (the findSome? over that position list);
and a regular-expression address evaluation fails with the no-match error
exactly when every start position 0..size is exhausted without a match. -/
theorem regexp_match_wrap_spec {α : Type} (matchAt : ℕ → Option α) (size fr : ℕ)
    (h : fr ≤ size) :
    matchWrap matchAt size fr =
      (List.range' fr (size + 1 - fr) ++ List.range fr).findSome? matchAt ∧
    (reWhereFrom matchAt size fr = .error Err.noMatch ↔
      ∀ i, i ≤ size → matchAt i = none) := by
  have h1 := matchLoop1_eq matchAt size fr
  have h2 := matchLoop2_eq matchAt fr 0
  have hrange : List.range fr = List.range' 0 fr := List.range_eq_range' fr
  have hwrap : matchWrap matchAt size fr =
      (List.range' fr (size + 1 - fr) ++ List.range fr).findSome? matchAt := by
    rw [findSome?_append_eq, matchWrap, h1]
    cases hm : (List.range' fr (size + 1 - fr)).findSome? matchAt with
    | some es => rfl
    | none => rw [h2, hrange]; norm_num
  refine ⟨hwrap, ?_⟩
  rw [reWhereFrom, hwrap]
  constructor
  · intro hres i hi
    cases hm : (List.range' fr (size + 1 - fr) ++ List.range fr).findSome? matchAt with
    | some es => rw [hm] at hres; exact absurd hres (by simp)
    | none =>
      rw [List.findSome?_eq_none_iff] at hm
      rcases Nat.lt_or_ge i fr with hlt | hge
      · exact hm i (by simp [List.mem_append, List.mem_range]; omega)
      · refine hm i ?_
        simp only [List.mem_append, List.mem_range'_1]
        left
        omega
  · intro hall
    have : (List.range' fr (size + 1 - fr) ++ List.range fr).findSome? matchAt = none := by
      rw [List.findSome?_eq_none_iff]
      intro x hx
      refine hall x ?_
      rcases List.mem_append.mp hx with hx | hx
      · rw [List.mem_range'_1] at hx; omega
      · rw [List.mem_range] at hx; omega
    rw [this]

/-- Witness for regexp_match_wrap_spec with size 3, from 1 and a matcher
that matches only at position 2. -/
theorem regexp_match_wrap_spec_witness :
    (1 : ℕ) ≤ 3 ∧
    (matchWrap (fun i => if i = 2 then some 0 else none) 3 1 =
      (List.range' 1 (3 + 1 - 1) ++ List.range 1).findSome?
        (fun i => if i = 2 then some 0 else none) ∧
    (reWhereFrom (fun i => if i = 2 then some 0 else none) 3 1 = .error Err.noMatch ↔
      ∀ i, i ≤ 3 → (fun i => if i = 2 then some (0 : ℕ) else none) i = none)) :=
  ⟨by decide, regexp_match_wrap_spec (fun i => if i = 2 then some 0 else none) 3 1 (by decide)⟩

/-! ### Forward line addresses (lineAddr.fwd, part_000 lines 327-360)

The buffer is modelled as its list of runes (buf.rune(i) is list indexing,
as the spec's rune buffer exposes rune(i); read errors do not arise in the
pure model).  Evaluation is from offset 0, where the source's initial
advance-to-end-of-line block (guarded by a.to > 0) does not run. -/

/-- The scanning loop of lineAddr.fwd: while l.n > 0 and a.to < size,
read the rune at a.to, advance a.to, and on a newline decrement l.n and,
if lines remain, move a.from up to a.to.  The list argument is the
not-yet-scanned suffix of the buffer; t is the absolute offset a.to.
Returns the final (l.n, a.from, a.to). -/
def lineFwdLoop : List Char → ℕ → ℕ → ℕ → ℕ × ℕ × ℕ
  | [], n, f, t => (n, f, t)
  | _ :: _, 0, f, t => (0, f, t)
  | c :: rest, m + 1, f, t =>
    if c = '\n' then
      if m > 0 then lineFwdLoop rest m (t + 1) (t + 1)
      else lineFwdLoop rest m f (t + 1)
    else lineFwdLoop rest (m + 1) f (t + 1)

/-- lineAddr.fwd from offset 0: run the scanning loop from (0, 0), then
fail with line-out-of-range when l.n > 1, or l.n == 1 with a.to short of
the buffer end. -/
def lineFwd0 (content : List Char) (n : ℕ) : Except Err addr :=
  match lineFwdLoop content n 0 0 with
  | (nf, f, t) =>
    if nf > 1 ∨ (nf = 1 ∧ t < content.length) then .error .lineOutOfRange
    else .ok (addr.mk (f : ℤ) (t : ℤ))

/-- Spec side: the number of newline runes in the buffer.  The buffer has
countNl + 1 lines (a trailing newline opens a final empty line). -/
def countNl (content : List Char) : ℕ := content.count '\n'

/-- Spec side: the offset just after the jth newline (1-based); the buffer
length when there are fewer than j newlines. -/
def posNlGo : List Char → ℕ → ℕ
  | [], _ => 0
  | c :: rest, j =>
    if c = '\n' ∧ j = 1 then 1
    else 1 + posNlGo rest (if c = '\n' then j - 1 else j)

/-- Spec side: the offset where the (j+1)th line starts: 0 for j = 0, else
the offset just after the jth newline. -/
def posNl (content : List Char) (j : ℕ) : ℕ :=
  if j = 0 then 0 else posNlGo content j

theorem lineFwdLoop_zero (rest : List Char) (f t : ℕ) :
    lineFwdLoop rest 0 f t = (0, f, t) := by
  cases rest <;> rfl

theorem countNl_cons_nl (rest : List Char) :
    countNl ('\n' :: rest) = countNl rest + 1 := by
  simp [countNl, List.count_cons]

theorem countNl_cons_other (c : Char) (rest : List Char) (hc : ¬ c = '\n') :
    countNl (c :: rest) = countNl rest := by
  simp [countNl, List.count_cons, beq_iff_eq, hc]

theorem lineFwdLoop_eq (rest : List Char) : ∀ n f t : ℕ, 1 ≤ n →
    lineFwdLoop rest n f t =
      (n - min n (countNl rest),
       (if min (n - 1) (countNl rest) = 0 then f
        else t + posNlGo rest (min (n - 1) (countNl rest))),
       (if countNl rest ≥ n then t + posNlGo rest n else t + rest.length)) := by
  induction rest with
  | nil =>
    intro n f t hn
    simp only [lineFwdLoop, countNl, List.count_nil, posNlGo, List.length_nil]
    have h1 : min n 0 = 0 := by omega
    have h2 : min (n - 1) 0 = 0 := by omega
    have h3 : ¬ (0 ≥ n) := by omega
    simp [h1, h2, h3]
  | cons c rest ih =>
    intro n f t hn
    obtain ⟨m, rfl⟩ : ∃ m, n = m + 1 := ⟨n - 1, by omega⟩
    by_cases hc : c = '\n'
    · subst hc
      set k := countNl rest with hkdef
      have hkk : countNl ('\n' :: rest) = k + 1 := countNl_cons_nl rest
      rw [hkk]
      by_cases hm : m = 0
      · subst hm
        rw [show lineFwdLoop ('\n' :: rest) (0 + 1) f t = lineFwdLoop rest 0 f (t + 1) by
          simp [lineFwdLoop]]
        rw [lineFwdLoop_zero]
        have e2 : min (0 + 1 - 1) (k + 1) = 0 := by omega
        rw [if_pos e2, if_pos (show k + 1 ≥ 0 + 1 by omega)]
        have e4 : posNlGo ('\n' :: rest) (0 + 1) = 1 := by simp [posNlGo]
        rw [e4]
        refine congrArg₂ Prod.mk (by omega) (congrArg₂ Prod.mk rfl (by omega))
      · rw [show lineFwdLoop ('\n' :: rest) (m + 1) f t
            = lineFwdLoop rest m (t + 1) (t + 1) by
          simp [lineFwdLoop, Nat.pos_of_ne_zero hm]]
        rw [ih m (t + 1) (t + 1) (by omega)]
        refine congrArg₂ Prod.mk (by omega) (congrArg₂ Prod.mk ?_ ?_)
        · have hmin : min (m + 1 - 1) (k + 1) = min (m - 1) k + 1 := by omega
          rw [hmin]
          rw [if_neg (show ¬ (min (m - 1) k + 1 = 0) by omega)]
          by_cases h0 : min (m - 1) k = 0
          · rw [if_pos h0, h0]
            simp [posNlGo]
          · rw [if_neg h0]
            have : posNlGo ('\n' :: rest) (min (m - 1) k + 1)
                = 1 + posNlGo rest (min (m - 1) k) := by
              simp only [posNlGo]
              rw [if_neg (by omega)]
              simp
            rw [this]
            omega
        · by_cases hge : k ≥ m
          · rw [if_pos (show k + 1 ≥ m + 1 by omega), if_pos hge]
            have : posNlGo ('\n' :: rest) (m + 1) = 1 + posNlGo rest m := by
              simp only [posNlGo]
              rw [if_neg (by omega)]
              simp
            rw [this]
            omega
          · rw [if_neg (show ¬ (k + 1 ≥ m + 1) by omega), if_neg hge]
            simp only [List.length_cons]
            omega
    · rw [show lineFwdLoop (c :: rest) (m + 1) f t
          = lineFwdLoop rest (m + 1) f (t + 1) by
        simp [lineFwdLoop, hc]]
      rw [ih (m + 1) f (t + 1) (by omega)]
      rw [countNl_cons_other c rest hc]
      have hpos : ∀ j, posNlGo (c :: rest) j = 1 + posNlGo rest j := by
        intro j
        simp only [posNlGo]
        rw [if_neg (by simp [hc]), if_neg hc]
      refine congrArg₂ Prod.mk rfl (congrArg₂ Prod.mk ?_ ?_)
      · by_cases h0 : min (m + 1 - 1) (countNl rest) = 0
        · rw [if_pos h0, if_pos h0]
        · rw [if_neg h0, if_neg h0, hpos]
          omega
      · by_cases hge : countNl rest ≥ m + 1
        · rw [if_pos hge, if_pos hge, hpos]
          omega
        · rw [if_neg hge, if_neg hge]
          simp only [List.length_cons]
          omega

theorem lineFwd0_eq (content : List Char) (n nf f t : ℕ)
    (h : lineFwdLoop content n 0 0 = (nf, f, t)) :
    lineFwd0 content n =
      if nf > 1 ∨ (nf = 1 ∧ t < content.length) then .error .lineOutOfRange
      else .ok (addr.mk (f : ℤ) (t : ℤ)) := by
  unfold lineFwd0
  rw [h]

/-- C7: evaluating the forward line address line(n), n ≥ 1, from offset 0
returns the range of the nth line through its newline inclusive — from the
offset where the nth line starts (just after the (n-1)th newline) to the
offset just after its newline (or the buffer end when the last line has no
trailing newline) — and errors with line-out-of-range exactly when the
buffer has fewer than n lines, counting countNl + 1 lines; and at buffer
start line(0) evaluates to (0, 0). -/
theorem lineAddr_fwd_spec (content : List Char) (n : ℕ) :
    (1 ≤ n → lineFwd0 content n =
      (if countNl content + 1 < n then .error Err.lineOutOfRange
       else .ok (addr.mk (posNl content (n - 1) : ℤ)
          ((if n ≤ countNl content then posNlGo content n else content.length : ℕ) : ℤ)))) ∧
    lineFwd0 content 0 = .ok (addr.mk 0 0) := by
  constructor
  · intro hn
    rw [lineFwd0_eq content n _ _ _ (lineFwdLoop_eq content n 0 0 hn)]
    set k := countNl content with hk
    by_cases herr : k + 1 < n
    · rw [if_pos (Or.inl (show n - min n k > 1 by omega)), if_pos herr]
    · have hne : ¬ (n - min n k > 1 ∨ (n - min n k = 1 ∧
          (if k ≥ n then 0 + posNlGo content n else 0 + content.length) < content.length)) := by
        rcases (show n - min n k = 0 ∨ (n - min n k = 1 ∧ ¬ (k ≥ n)) by omega) with h | ⟨h1, h2⟩
        · omega
        · rw [if_neg h2]
          omega
      rw [if_neg hne, if_neg herr]
      have hfrm : (if min (n - 1) k = 0 then 0
          else 0 + posNlGo content (min (n - 1) k)) = posNl content (n - 1) := by
        by_cases h0 : min (n - 1) k = 0
        · have hn1 : n = 1 := by omega
          rw [if_pos h0, hn1]
          simp [posNl]
        · rw [if_neg h0]
          have hmin : min (n - 1) k = n - 1 := by omega
          rw [hmin, posNl, if_neg (by omega)]
          omega
      have htto : (if k ≥ n then 0 + posNlGo content n else 0 + content.length)
          = (if n ≤ k then posNlGo content n else content.length) := by
        split_ifs <;> omega
      rw [hfrm, htto]
  · rw [lineFwd0_eq content 0 0 0 0 (lineFwdLoop_zero content 0 0)]
    norm_num

/-- Witness for lineAddr_fwd_spec on the buffer "aa\n" at line 2. -/
theorem lineAddr_fwd_spec_witness :
    ((1 : ℕ) ≤ 2 ∧
      lineFwd0 ['a', 'a', '\n'] 2 =
        (if countNl ['a', 'a', '\n'] + 1 < 2 then .error Err.lineOutOfRange
         else .ok (addr.mk (posNl ['a', 'a', '\n'] (2 - 1) : ℤ)
            ((if 2 ≤ countNl ['a', 'a', '\n'] then posNlGo ['a', 'a', '\n'] 2
              else (['a', 'a', '\n'] : List Char).length : ℕ) : ℤ)))) ∧
    lineFwd0 ['a', 'a', '\n'] 0 = .ok (addr.mk 0 0) :=
  ⟨⟨by decide, (lineAddr_fwd_spec ['a', 'a', '\n'] 2).1 (by decide)⟩,
    (lineAddr_fwd_spec ['a', 'a', '\n'] 2).2⟩

/-! ### Bytes.ReadAt (buffer/bytes.go lines 106-132)

A Bytes buffer is modelled by its ordered list of blocks, each block by
its list of live bytes (block.n is the block's length).  The cache and the
backing file always hold exactly a block's live bytes, so the pure model
of get(i) returns the block's byte list, and b.size equals the total
length of the blocks.  Inside ReadAt, blockAt is only reached with
at < size (the loop returns io.EOF at the end first), so the trailing
block allocation of blockAt cannot trigger and blockAt is a pure lookup. -/

structure BytesM where
  blocks : List (List ℕ)
  deriving DecidableEq

namespace Bytes

/-- The byte content of the buffer: the concatenation of its blocks. -/
def content (b : BytesM) : List ℕ := b.blocks.flatten

/-- Bytes.Size: the invariant maintained for the size field. -/
def size (b : BytesM) : ℕ := (content b).length

/-- The search loop of Bytes.blockAt: walk the blocks accumulating the
start offset q0 until q0 <= at < q0 + blk.n. -/
def blockAtGo : List (List ℕ) → ℕ → ℕ → Option (ℕ × List ℕ)
  | [], _, _ => none
  | blk :: rest, at', q0 =>
    if q0 ≤ at' ∧ at' < q0 + blk.length then some (q0, blk)
    else blockAtGo rest at' (q0 + blk.length)

/-- The copy loop of Bytes.ReadAt: while dst bytes remain, stop with
io.EOF at the buffer end, else find the block at the current offset and
copy m = min(remaining, block bytes after the offset) bytes.  fuel bounds
the iteration count (each iteration copies at least one byte, so
fuel = len + 1 never runs out). -/
def readLoop (blocks : List (List ℕ)) : ℕ → ℕ → ℕ → List ℕ × Option Err
  | 0, _, _ => ([], some .fuelOut)
  | fuel + 1, len, at' =>
    if len = 0 then ([], none)
    else if at' = blocks.flatten.length then ([], some .eofErr)
    else
      match blockAtGo blocks at' 0 with
      | none => ([], some .badLog)
      | some (q0, blk) =>
        let o := at' - q0
        let m := min len (blk.length - o)
        let r := readLoop blocks fuel (len - m) (at' + m)
        ((blk.drop o).take m ++ r.1, r.2)

/-- Bytes.ReadAt from the source: the dst buffer is represented by its
length len, and the result is the list of bytes copied into it together
with the error returned (none models a nil error). -/
def readAt (b : BytesM) (len : ℕ) (at' : ℤ) : List ℕ × Option Err :=
  if at' < 0 then ([], some .addressOutOfRange)
  else if at' = (size b : ℤ) ∧ len = 0 then ([], none)
  else if (size b : ℤ) ≤ at' then ([], some .eofErr)
  else readLoop b.blocks (len + 1) len at'.toNat

theorem blockAtGo_spec (blocks : List (List ℕ)) : ∀ q0 at' : ℕ,
    q0 ≤ at' → at' < q0 + blocks.flatten.length →
    ∃ s blk tail, blockAtGo blocks at' q0 = some (s, blk) ∧
      q0 ≤ s ∧ s ≤ at' ∧ at' < s + blk.length ∧
      blocks.flatten.drop (at' - q0) = blk.drop (at' - s) ++ tail := by
  induction blocks with
  | nil =>
    intro q0 at' h1 h2
    simp only [List.flatten_nil, List.length_nil] at h2
    omega
  | cons blk rest ih =>
    intro q0 at' h1 h2
    by_cases hin : q0 ≤ at' ∧ at' < q0 + blk.length
    · refine ⟨q0, blk, rest.flatten, ?_, le_refl q0, h1, hin.2, ?_⟩
      · rw [blockAtGo, if_pos hin]
      · rw [List.flatten_cons, List.drop_append_of_le_length (by omega)]
    · have hge : q0 + blk.length ≤ at' := by omega
      have h2' : at' < (q0 + blk.length) + rest.flatten.length := by
        simp only [List.flatten_cons, List.length_append] at h2
        omega
      obtain ⟨s, blk', tail, heq, hs1, hs2, hs3, hs4⟩ := ih (q0 + blk.length) at' hge h2'
      refine ⟨s, blk', tail, ?_, by omega, hs2, hs3, ?_⟩
      · rw [blockAtGo, if_neg hin]
        exact heq
      · rw [List.flatten_cons,
          show at' - q0 = blk.length + (at' - (q0 + blk.length)) by omega,
          List.drop_append (at' - (q0 + blk.length))]
        exact hs4

theorem readLoop_eq (blocks : List (List ℕ)) : ∀ fuel len at' : ℕ,
    len < fuel → at' + len ≤ blocks.flatten.length →
    readLoop blocks fuel len at' = ((blocks.flatten.drop at').take len, none) := by
  intro fuel
  induction fuel with
  | zero => omega
  | succ fuel ih =>
    intro len at' hlen hle
    rw [readLoop]
    by_cases h0 : len = 0
    · rw [if_pos h0, h0]
      simp
    · rw [if_neg h0, if_neg (show ¬ (at' = blocks.flatten.length) by omega)]
      obtain ⟨s, blk, tail, heq, hs1, hs2, hs3, hs4⟩ :=
        blockAtGo_spec blocks 0 at' (by omega) (by omega)
      rw [show at' - 0 = at' by omega] at hs4
      rw [heq]
      dsimp only
      have htail : tail.length = blocks.flatten.length - at' - (blk.length - (at' - s)) := by
        have := congrArg List.length hs4
        simp only [List.length_drop, List.length_append] at this
        omega
      have hm1 : 1 ≤ min len (blk.length - (at' - s)) := by omega
      have hmlen : min len (blk.length - (at' - s)) ≤ len := by omega
      rw [ih (len - min len (blk.length - (at' - s)))
        (at' + min len (blk.length - (at' - s))) (by omega) (by omega)]
      dsimp only
      have hcopy : (blk.drop (at' - s)).take (min len (blk.length - (at' - s)))
          = (blocks.flatten.drop at').take (min len (blk.length - (at' - s))) := by
        rw [hs4, List.take_append_of_le_length (by rw [List.length_drop]; omega)]
      rw [hcopy, ← List.drop_drop, ← List.take_add,
        show min len (blk.length - (at' - s)) + (len - min len (blk.length - (at' - s)))
          = len by omega]

/-- C4 (amended): Bytes.ReadAt copies the bytes starting at offset at
(for 0 ≤ at with at + len ≤ size it returns exactly the len bytes of the
buffer starting at at, with a nil error); when at == size and dst is empty
it returns a nil error and no bytes (NOT end-of-stream, correcting the
claim); it returns end-of-stream when at > size, or at == size with a
non-empty dst; and for every at < 0 it fails with address-out-of-range. -/
theorem bytes_readAt_spec (b : BytesM) (len : ℕ) (at' : ℤ) :
    (at' < 0 → readAt b len at' = ([], some Err.addressOutOfRange)) ∧
    (at' = (size b : ℤ) ∧ len = 0 → readAt b len at' = ([], none)) ∧
    ((size b : ℤ) < at' ∨ (at' = (size b : ℤ) ∧ 0 < len) →
      readAt b len at' = ([], some Err.eofErr)) ∧
    (0 ≤ at' → at'.toNat + len ≤ size b →
      readAt b len at' = (((content b).drop at'.toNat).take len, none)) := by
  refine ⟨?_, ?_, ?_, ?_⟩
  · intro h
    rw [readAt, if_pos h]
  · rintro ⟨h1, h2⟩
    rw [readAt, if_neg (by omega), if_pos ⟨h1, h2⟩]
  · intro h
    rcases h with h | ⟨h1, h2⟩
    · rw [readAt, if_neg (by omega), if_neg (by omega), if_pos (by omega)]
    · rw [readAt, if_neg (by omega), if_neg (by omega), if_pos (by omega)]
  · intro h1 h2
    by_cases hend : at' = (size b : ℤ) ∧ len = 0
    · rw [readAt, if_neg (by omega), if_pos hend, hend.2]
      simp
    · have hlt : at' < (size b : ℤ) := by
        rcases Nat.eq_zero_or_pos len with h0 | h0
        · rcases eq_or_lt_of_le (show at' ≤ (size b : ℤ) by omega) with he | hl
          · exact absurd ⟨he, h0⟩ hend
          · exact hl
        · omega
      rw [readAt, if_neg (by omega), if_neg hend, if_neg (by omega)]
      exact readLoop_eq b.blocks (len + 1) len at'.toNat (by omega) (by simpa [size, content] using h2)

/-- Witness for bytes_readAt_spec on the two-block buffer [10,11],[12]:
a negative offset errors, the empty read at the end returns nil, reading
past the end gives end-of-stream, and reading 2 bytes at offset 1 yields
[11, 12]. -/
theorem bytes_readAt_spec_witness :
    ((-1 : ℤ) < 0 ∧ readAt (BytesM.mk [[10, 11], [12]]) 2 (-1)
        = ([], some Err.addressOutOfRange)) ∧
    (((3 : ℤ) = (size (BytesM.mk [[10, 11], [12]]) : ℤ) ∧ (0 : ℕ) = 0) ∧
      readAt (BytesM.mk [[10, 11], [12]]) 0 3 = ([], none)) ∧
    (((size (BytesM.mk [[10, 11], [12]]) : ℤ) < 4 ∨
        ((4 : ℤ) = (size (BytesM.mk [[10, 11], [12]]) : ℤ) ∧ 0 < 2)) ∧
      readAt (BytesM.mk [[10, 11], [12]]) 2 4 = ([], some Err.eofErr)) ∧
    ((0 : ℤ) ≤ 1 ∧ (1 : ℤ).toNat + 2 ≤ size (BytesM.mk [[10, 11], [12]]) ∧
      readAt (BytesM.mk [[10, 11], [12]]) 2 1
        = (((content (BytesM.mk [[10, 11], [12]])).drop (1 : ℤ).toNat).take 2, none)) :=
  ⟨⟨by decide, (bytes_readAt_spec (BytesM.mk [[10, 11], [12]]) 2 (-1)).1 (by decide)⟩,
   ⟨⟨by decide, rfl⟩,
     (bytes_readAt_spec (BytesM.mk [[10, 11], [12]]) 0 3).2.1 ⟨by decide, rfl⟩⟩,
   ⟨Or.inl (by decide),
     (bytes_readAt_spec (BytesM.mk [[10, 11], [12]]) 2 4).2.2.1 (Or.inl (by decide))⟩,
   ⟨by decide, by decide,
     (bytes_readAt_spec (BytesM.mk [[10, 11], [12]]) 2 1).2.2.2 (by decide) (by decide)⟩⟩

end Bytes

/-- C4 counterexample: on the empty buffer, ReadAt with an empty dst at
at == size == 0 returns a nil error and zero bytes, not the end-of-stream
error the claim asserts for that case. -/
theorem bytes_readAt_empty_counterexample :
    Bytes.readAt (BytesM.mk []) 0 0 = ([], none) ∧
    Bytes.readAt (BytesM.mk []) 0 0 ≠ ([], some Err.eofErr) := by
  constructor <;> decide

/-! ### The pending journal log (edit/log.go)

The journal's backing rune buffer is a runes.Buffer, whose implementation
is not under src/; per the spec (§4.2) it is an indexed rune sequence with
read, insert and delete, modelled here as a list of runes (Go int32
values, modelled as integers).  log.push / log.pop and the header
encoding/decoding are translated from log.go. -/

/-- Modelled from the spec: runes.Buffer.Read(rs, from) for a destination
of cnt runes — returns the cnt runes starting at offset from, or fails
when the range is not inside the buffer (the runes.Buffer implementation
is not under src/, only its callers). -/
def bufRead (l : List ℤ) (cnt : ℕ) (frm : ℤ) : Option (List ℤ) :=
  if 0 ≤ frm ∧ frm.toNat + cnt ≤ l.length then some ((l.drop frm.toNat).take cnt)
  else none

/-- Go conversion int64 → rune (int32): keep the low 32 bits, interpreted
as a signed value. -/
def toRune32 (x : ℤ) : ℤ :=
  let lo := x % 4294967296
  if lo < 2147483648 then lo else lo - 4294967296

/-- Go arithmetic right shift of an int64 by 32 bits (floor division). -/
def shr32 (x : ℤ) : ℤ := Int.fdiv x 4294967296

/-- The 64-bit two's-complement representative of a Go int64 value. -/
def toTwos64 (x : ℤ) : ℕ := (x % 18446744073709551616).toNat

/-- Read a Go int64 value back from its two's-complement representative. -/
def ofTwos64 (n : ℕ) : ℤ :=
  if (n : ℤ) < 9223372036854775808 then (n : ℤ) else (n : ℤ) - 18446744073709551616

/-- Go int64 left shift by 32 bits (wraps modulo 2^64). -/
def shl32 (x : ℤ) : ℤ := ofTwos64 ((toTwos64 x * 4294967296) % 18446744073709551616)

/-- Go int64 bitwise or. -/
def lor64 (a b : ℤ) : ℤ := ofTwos64 (Nat.lor (toTwos64 a) (toTwos64 b))

/-- A journal entry header: the address after the edit, the size of the
address before the edit, and the buffer sequence number at push time. -/
structure header where
  adr : addr
  size0 : ℤ
  seq : ℤ
  deriving DecidableEq

/-- header.insert from the source: the 7 runes written for a header —
from, to and size0 each split into two 32-bit rune halves, then seq. -/
def headerRunes (h : header) : List ℤ :=
  [toRune32 h.adr.frm, toRune32 (shr32 h.adr.frm),
   toRune32 h.adr.to', toRune32 (shr32 h.adr.to'),
   toRune32 h.size0, toRune32 (shr32 h.size0),
   h.seq]

/-- readHeader from the source: read 7 runes at the offset and reassemble
the three 64-bit fields as int64(lo) | int64(hi)<<32. -/
def readHeader (l : List ℤ) (frm : ℤ) : Option header :=
  match bufRead l 7 frm with
  | some [r0, r1, r2, r3, r4, r5, r6] =>
    some ⟨⟨lor64 r0 (shl32 r1), lor64 r2 (shl32 r3)⟩, lor64 r4 (shl32 r5), r6⟩
  | _ => none

/-- The journal log: its backing rune buffer and its entry count. -/
structure Log where
  runes : List ℤ
  n : ℤ
  deriving DecidableEq

namespace Log

/-- log.push from the source: read the pre-image runes of a from the
buffer, append them to the log's rune buffer, then append the 7-rune
header for address {a.from, a.from + n}, size0 = a.size(), seq = b.seq. -/
def push (l : Log) (bruns : List ℤ) (bseq : ℤ) (a : addr) (n : ℤ) : Option Log :=
  match bufRead bruns a.size.toNat a.frm with
  | none => none
  | some rs =>
    some ⟨(l.runes ++ rs) ++ headerRunes ⟨⟨a.frm, a.frm + n⟩, a.size, bseq⟩, l.n + 1⟩

/-- log.pop from the source: read the trailing header at offset
from = size - 7, then the size0 pre-image runes before it at offset
from - size0, delete both from the log's rune buffer, and return the
entry (the none cases model the "bad log" panics and read errors). -/
def pop (l : Log) : Option (header × List ℤ × Log) :=
  if (l.runes.length : ℤ) - 7 < 0 then none
  else
    match readHeader l.runes ((l.runes.length : ℤ) - 7) with
    | none => none
    | some h =>
      if (l.runes.length : ℤ) - 7 - h.size0 < 0 then none
      else
        match bufRead l.runes h.size0.toNat ((l.runes.length : ℤ) - 7 - h.size0) with
        | none => none
        | some rs =>
          some (h, rs, ⟨l.runes.take ((l.runes.length : ℤ) - 7 - h.size0).toNat, l.n - 1⟩)

/-- Unfolding lemma for pop when every stage succeeds. -/
theorem pop_eq (l : Log) (h : header) (pre : List ℤ)
    (h7 : ¬ ((l.runes.length : ℤ) - 7 < 0))
    (hh : readHeader l.runes ((l.runes.length : ℤ) - 7) = some h)
    (h2 : ¬ ((l.runes.length : ℤ) - 7 - h.size0 < 0))
    (hr : bufRead l.runes h.size0.toNat ((l.runes.length : ℤ) - 7 - h.size0) = some pre) :
    pop l = some (h, pre,
      ⟨l.runes.take ((l.runes.length : ℤ) - 7 - h.size0).toNat, l.n - 1⟩) := by
  rw [pop, if_neg h7, hh]
  dsimp only
  rw [if_neg h2, hr]

end Log

theorem natLor_zero (n : ℕ) : Nat.lor n 0 = n := Nat.or_zero n

/-- The header halves round-trip for values whose low 32-bit word has the
sign bit clear; in particular for 0 ≤ x < 2^31 the high half is zero and
int64(lo) | int64(hi)<<32 gives back x. -/
theorem header_roundtrip32 (x : ℤ) (h0 : 0 ≤ x) (h1 : x < 2147483648) :
    lor64 (toRune32 x) (shl32 (toRune32 (shr32 x))) = x := by
  have hlo : toRune32 x = x := by
    simp only [toRune32]
    rw [Int.emod_eq_of_lt h0 (by omega)]
    rw [if_pos h1]
  have hhi : shr32 x = 0 := by
    simp only [shr32]
    rw [Int.fdiv_eq_ediv _ (by omega)]
    omega
  have hz : toRune32 0 = 0 := by simp [toRune32]
  have htz : toTwos64 0 = 0 := by simp [toTwos64]
  have hshl : shl32 0 = 0 := by simp [shl32, htz, ofTwos64]
  rw [hlo, hhi, hz, hshl]
  simp only [lor64, htz, natLor_zero]
  have htx : toTwos64 x = x.toNat := by
    simp only [toTwos64]
    rw [Int.emod_eq_of_lt h0 (by omega)]
  rw [htx]
  simp only [ofTwos64]
  rw [if_pos (by omega)]
  omega

/-- readHeader inverts header.insert at the end of a rune buffer when all
three 64-bit header fields are small enough that their low 32-bit halves
have a clear sign bit. -/
theorem readHeader_headerRunes (xs : List ℤ) (h : header)
    (hf0 : 0 ≤ h.adr.frm) (hf1 : h.adr.frm < 2147483648)
    (ht0 : 0 ≤ h.adr.to') (ht1 : h.adr.to' < 2147483648)
    (hs0 : 0 ≤ h.size0) (hs1 : h.size0 < 2147483648) :
    readHeader (xs ++ headerRunes h) (xs.length : ℤ) = some h := by
  have hbr : bufRead (xs ++ headerRunes h) 7 (xs.length : ℤ) = some (headerRunes h) := by
    rw [bufRead, if_pos ⟨by omega, by simp [headerRunes]⟩]
    have h1 : (xs.length : ℤ).toNat = xs.length := by omega
    rw [h1, List.drop_left]
    rw [show (7 : ℕ) = (headerRunes h).length from rfl, List.take_length]
  rw [readHeader, hbr, headerRunes]
  dsimp only
  rw [header_roundtrip32 _ hf0 hf1, header_roundtrip32 _ ht0 ht1, header_roundtrip32 _ hs0 hs1]

/-- C6 counterexample: push an entry with new size n = 2^31 onto an empty
journal over the one-rune buffer [97].  The header stores to = a.from + n
= 2^31 split into two 32-bit rune halves, but readHeader sign-extends
int64(rs[2]), so pop returns a header whose to is -2^31, not the pushed
2^31: the popped entry is not the pushed one. -/
theorem log_push_pop_counterexample :
    (Log.push ⟨[], 0⟩ [97] 0 (addr.mk 0 1) 2147483648).bind Log.pop
      = some (⟨⟨0, -2147483648⟩, 1, 0⟩, [97], ⟨[], 0⟩) ∧
    (addr.mk 0 (-2147483648)) ≠ addr.mk 0 (0 + 2147483648) := by
  constructor <;> decide

set_option maxHeartbeats 1000000 in
/-- C6 (amended): for every buffer, every range a valid in it and every
new size n ≥ 0, provided a.from + n and the buffer size are below 2^31
(so every header field fits a rune half without sign-extension loss),
log.push stores the pre-image runes of a followed by the 7-rune header
{from, from+n, size0 = a.size(), seq}, each 64-bit field split into two
32-bit rune halves, and log.pop then returns exactly the pushed entry and
leaves the journal's backing rune buffer with its prior contents. -/
theorem log_push_pop_roundtrip (l : Log) (bruns : List ℤ) (bseq : ℤ) (a : addr) (n : ℤ)
    (hva : 0 ≤ a.frm ∧ a.frm ≤ a.to' ∧ a.to' ≤ (bruns.length : ℤ))
    (hn : 0 ≤ n)
    (hb1 : a.frm + n < 2147483648)
    (hb2 : (bruns.length : ℤ) < 2147483648) :
    Log.push l bruns bseq a n =
      some ⟨(l.runes ++ (bruns.drop a.frm.toNat).take a.size.toNat)
          ++ headerRunes ⟨⟨a.frm, a.frm + n⟩, a.size, bseq⟩, l.n + 1⟩ ∧
    (Log.push l bruns bseq a n).bind Log.pop =
      some (⟨⟨a.frm, a.frm + n⟩, a.size, bseq⟩,
        (bruns.drop a.frm.toNat).take a.size.toNat, l) := by
  obtain ⟨h0, h1, h2⟩ := hva
  have hszn : (a.size.toNat : ℤ) = a.size := by
    simp only [addr.size]
    omega
  have hread : bufRead bruns a.size.toNat a.frm
      = some ((bruns.drop a.frm.toNat).take a.size.toNat) := by
    rw [bufRead, if_pos]
    refine ⟨h0, ?_⟩
    simp only [addr.size]
    omega
  have hpush : Log.push l bruns bseq a n =
      some ⟨(l.runes ++ (bruns.drop a.frm.toNat).take a.size.toNat)
          ++ headerRunes ⟨⟨a.frm, a.frm + n⟩, a.size, bseq⟩, l.n + 1⟩ := by
    rw [Log.push, hread]
  refine ⟨hpush, ?_⟩
  rw [hpush, Option.some_bind]
  set pre := (bruns.drop a.frm.toNat).take a.size.toNat with hpre
  set hd := headerRunes ⟨⟨a.frm, a.frm + n⟩, a.size, bseq⟩ with hhd
  have hprelen : pre.length = a.size.toNat := by
    simp only [hpre, List.length_take, List.length_drop, addr.size]
    omega
  have hhdlen : hd.length = 7 := rfl
  set R : Log := ⟨(l.runes ++ pre) ++ hd, l.n + 1⟩ with hR
  have hRlen : R.runes.length = l.runes.length + pre.length + 7 := by
    simp only [hR, List.length_append, hhdlen]
    try omega
  have hfrm : ((R.runes.length : ℤ) - 7).toNat = (l.runes ++ pre).length := by
    simp only [hRlen, List.length_append]
    omega
  have hhdr : readHeader R.runes ((R.runes.length : ℤ) - 7)
      = some ⟨⟨a.frm, a.frm + n⟩, a.size, bseq⟩ := by
    have hpos : ((R.runes.length : ℤ) - 7) = (((l.runes ++ pre).length : ℕ) : ℤ) := by
      rw [hRlen]
      simp only [List.length_append]
      push_cast
      omega
    rw [hpos, hR, hhd]
    exact readHeader_headerRunes (l.runes ++ pre) ⟨⟨a.frm, a.frm + n⟩, a.size, bseq⟩
      (by dsimp only; omega) (by dsimp only; omega)
      (by dsimp only; omega) (by dsimp only; omega)
      (by dsimp only; simp only [addr.size]; omega)
      (by dsimp only; simp only [addr.size]; omega)
  have hfrm2 : (R.runes.length : ℤ) - 7 - a.size = (l.runes.length : ℤ) := by
    rw [hRlen]
    push_cast
    omega
  have hpread : bufRead R.runes a.size.toNat ((R.runes.length : ℤ) - 7 - a.size)
      = some pre := by
    rw [hfrm2, bufRead, if_pos ⟨by omega, by rw [hRlen]; simp; omega⟩]
    have hds : R.runes.drop (l.runes.length : ℤ).toNat = pre ++ hd := by
      rw [hR]
      have : (l.runes.length : ℤ).toNat = l.runes.length := by omega
      rw [this, List.append_assoc]
      exact List.drop_left l.runes (pre ++ hd)
    rw [hds]
    rw [List.take_append_of_le_length (by omega), ← hprelen, List.take_length]
  have hpop : Log.pop R = some (⟨⟨a.frm, a.frm + n⟩, a.size, bseq⟩, pre,
      ⟨R.runes.take ((R.runes.length : ℤ) - 7 - a.size).toNat, R.n - 1⟩) :=
    Log.pop_eq R ⟨⟨a.frm, a.frm + n⟩, a.size, bseq⟩ pre
      (by omega) hhdr (by rw [hfrm2]; omega) hpread
  rw [hpop]
  have htake : R.runes.take ((R.runes.length : ℤ) - 7 - a.size).toNat = l.runes := by
    rw [hfrm2, hR]
    have : (l.runes.length : ℤ).toNat = l.runes.length := by omega
    rw [this, List.append_assoc]
    exact List.take_left l.runes (pre ++ hd)
  rw [htake]
  have hnn : R.n - 1 = l.n := by rw [hR]; ring
  rw [hnn]

/-- Witness for log_push_pop_roundtrip: push the range [0,1) of the
buffer [97] with new size 2 onto the empty journal, then pop it back. -/
theorem log_push_pop_roundtrip_witness :
    ((0 ≤ (addr.mk 0 1).frm ∧ (addr.mk 0 1).frm ≤ (addr.mk 0 1).to' ∧
        (addr.mk 0 1).to' ≤ (([97] : List ℤ).length : ℤ)) ∧
      0 ≤ (2 : ℤ) ∧ (addr.mk 0 1).frm + 2 < 2147483648 ∧
      (([97] : List ℤ).length : ℤ) < 2147483648) ∧
    (Log.push ⟨[], 0⟩ [97] 5 (addr.mk 0 1) 2).bind Log.pop =
      some (⟨⟨(addr.mk 0 1).frm, (addr.mk 0 1).frm + 2⟩, (addr.mk 0 1).size, 5⟩,
        (([97] : List ℤ).drop (addr.mk 0 1).frm.toNat).take (addr.mk 0 1).size.toNat,
        ⟨[], 0⟩) :=
  ⟨⟨⟨by decide, by decide, by decide⟩, by decide, by decide, by decide⟩,
    (log_push_pop_roundtrip ⟨[], 0⟩ [97] 5 (addr.mk 0 1) 2
      ⟨by decide, by decide, by decide⟩ (by decide) (by decide) (by decide)).2⟩

/-! ### Editor.do: the optimistic two-phase commit (buffer.go)

The editor-and-buffer state is modelled for a single editor: the shared
buffer's runes and seq counter, the editor's marks (a total map, absent
marks being the zero range as for a Go map), and the pending journal.
The pending journal's entry iteration API (logFirst/next/store/clear) is
not under src/; per the spec (§4.6) the journal is a list of pending
entries, cleared at the start of phase one.  The phase-one function f is
the edit's do method, kept abstract: it may modify marks and append to
the journal, and by the phase-one contract it does not mutate the buffer
(hypothesis in the theorem). -/

/-- A pending-journal entry as used by fixAddrs and applyChanges: its
address, its size after the change (e.size), and its replacement runes
(e.data()). -/
structure LogEntry where
  adr : addr
  size : ℤ
  data : List ℤ
  deriving DecidableEq

/-- The editor-and-buffer state seen by Editor.do. -/
structure EdState where
  bufRunes : List ℤ
  seq : ℤ
  marks : Char → addr
  pending : List LogEntry

/-- Modelled from the spec: inSequence (the entry iteration API is not
under src/) — the journal is rejected when an entry starts before the end
of a prior entry and the two differ. -/
def inSequence : List LogEntry → Bool
  | e :: f :: rest =>
    if f.adr ≠ e.adr ∧ f.adr.frm < e.adr.to' then false else inSequence (f :: rest)
  | _ => true

/-- The loop of fixAddrs from the source: for each entry e in order, grow
at.to when e has the same from (else update at), and rewrite every later
entry f by f.at.update(e.at, e.size). -/
def fixAddrsGo : addr → List LogEntry → addr × List LogEntry
  | a, [] => (a, [])
  | a, e :: rest =>
    let a' := if e.adr.frm = a.frm then { a with to' := (a.update e.adr e.size).to' }
              else a.update e.adr e.size
    let rest' := rest.map fun f => { f with adr := f.adr.update e.adr e.size }
    let r := fixAddrsGo a' rest'
    (r.1, e :: r.2)
termination_by _ l => l.length
decreasing_by simp [List.length_map]

/-- fixAddrs from the source: reject an out-of-sequence journal, else run
the fix-up loop (the store error cases cannot arise in the pure model). -/
def fixAddrs (a : addr) (l : List LogEntry) : Except Err (addr × List LogEntry) :=
  if ¬ inSequence l then .error .notInSequence
  else .ok (fixAddrsGo a l)

/-- Buffer.change from the source, for the single modelled editor: delete
the range, insert the data at its start, and update every mark by
update(at, n) where n is the number of runes copied. -/
def bufChange (s : EdState) (a : addr) (data : List ℤ) : EdState × Option Err :=
  if a.size < 0 ∨ a.frm < 0 ∨ a.frm + a.size > (s.bufRunes.length : ℤ) then
    (s, some .addressOutOfRange)
  else
    ({ s with
        bufRunes := s.bufRunes.take a.frm.toNat ++ data
          ++ s.bufRunes.drop (a.frm + a.size).toNat,
        marks := fun m => (s.marks m).update a (data.length : ℤ) },
      none)

/-- The loop of applyChanges: perform each pending change in order;
a change error aborts with the buffer possibly partially modified. -/
def applyChangesGo : EdState → List LogEntry → EdState × Option Err
  | s, [] => (s, none)
  | s, e :: rest =>
    match bufChange s e.adr e.data with
    | (s', some err) => (s', some err)
    | (s', none) => applyChangesGo s' rest

/-- applyChanges from the source: retry when the buffer's seq advanced
since phase one, else apply the journal and bump seq.  The Bool result is
the retry flag. -/
def applyChanges (s : EdState) (seq : ℤ) : EdState × Bool × Option Err :=
  if s.seq ≠ seq then (s, true, none)
  else
    match applyChangesGo s s.pending with
    | (s', some err) => (s', false, some err)
    | (s', none) => ({ s' with seq := s'.seq + 1 }, false, none)

/-- pendChanges from the source: clear the pending journal, snapshot the
buffer's seq, and run the phase-one function under the reader lock. -/
def pendChanges (f : EdState → EdState × Except Err addr) (s : EdState) :
    ℤ × EdState × Except Err addr :=
  let s1 : EdState := { s with pending := [] }
  (s1.seq, f s1)

/-- Editor.do from the source, with fuel bounding the retry loop: copy the
marks, run phase one (on error, restore the marks copy — the deferred
assignment — and return the error), fix up the addresses, retry if seq
moved, else apply the changes and set dot to the fixed-up range. -/
def doGo (f : EdState → EdState × Except Err addr) : ℕ → EdState → EdState × Option Err
  | 0, s => (s, some .fuelOut)
  | fuel + 1, s =>
    let marks0 := s.marks
    match pendChanges f s with
    | (_, s2, .error e) => ({ s2 with marks := marks0 }, some e)
    | (seq, s2, .ok a) =>
      match fixAddrs a s2.pending with
      | .error e => ({ s2 with marks := marks0 }, some e)
      | .ok (a', l') =>
        match applyChanges { s2 with pending := l' } seq with
        | (s4, true, _) => doGo f fuel s4
        | (s4, false, some e) => ({ s4 with marks := marks0 }, some e)
        | (s4, false, none) =>
          ({ s4 with marks := fun m => if m = '.' then a' else s4.marks m }, none)

/-- C3: for every edit whose phase-one function returns a recoverable
error, Editor.do returns that error, the buffer's rune contents are
unchanged (given the phase-one contract that f does not write the
buffer), and the editor's marks, dot included, equal their values from
before the call (the deferred restore of the marks copy). -/
theorem editor_do_phase1_error (f : EdState → EdState × Except Err addr)
    (s : EdState) (fuel : ℕ) (e : Err)
    (hf : (f { s with pending := [] }).2 = .error e)
    (hbuf : (f { s with pending := [] }).1.bufRunes = s.bufRunes) :
    (doGo f (fuel + 1) s).2 = some e ∧
    (doGo f (fuel + 1) s).1.bufRunes = s.bufRunes ∧
    (doGo f (fuel + 1) s).1.marks = s.marks := by
  have hstep : doGo f (fuel + 1) s =
      ({ (f { s with pending := [] }).1 with marks := s.marks }, some e) := by
    rw [doGo, pendChanges]
    rcases hfs : f { s with pending := [] } with ⟨s2, r2⟩
    rw [hfs] at hf
    simp only at hf
    rw [hf]
  rw [hstep]
  exact ⟨rfl, hbuf, rfl⟩

/-- Witness for editor_do_phase1_error: a phase-one function that always
fails with no-match leaves the one-rune buffer and the marks untouched. -/
theorem editor_do_phase1_error_witness :
    ((fun t : EdState => (t, (.error .noMatch : Except Err addr)))
        { bufRunes := [5], seq := 0, marks := fun _ => addr.mk 0 0,
          pending := ([] : List LogEntry) }).2 = .error .noMatch ∧
    (doGo (fun t => (t, .error .noMatch)) 1
        { bufRunes := [5], seq := 0, marks := fun _ => addr.mk 0 0, pending := [] }).2
      = some Err.noMatch ∧
    (doGo (fun t => (t, .error .noMatch)) 1
        { bufRunes := [5], seq := 0, marks := fun _ => addr.mk 0 0, pending := [] }).1.bufRunes
      = [5] ∧
    (doGo (fun t => (t, .error .noMatch)) 1
        { bufRunes := [5], seq := 0, marks := fun _ => addr.mk 0 0, pending := [] }).1.marks
      = fun _ => addr.mk 0 0 :=
  ⟨rfl,
    editor_do_phase1_error (fun t => (t, .error .noMatch))
      { bufRunes := [5], seq := 0, marks := fun _ => addr.mk 0 0, pending := [] }
      0 .noMatch rfl rfl⟩

/-! ### Address stringification and parsing (part_000 lines 224-691)

Addresses are compoundAddr (To with comma, Then with semicolon), addAddr
(Plus, Minus: right argument a simple address), and the simple forms of
SAddr.  String renders each; Addr parses.  parseRegexp's body is not
under src/ and is modelled from the spec's grammar; all other parsing
functions are translated from the source. -/

/-- The apostrophe rune that introduces a mark address. -/
def squote : Char := Char.ofNat 39

/-- The address AST: simple addresses, compoundAddr (op is comma or
semicolon) and addAddr (op is plus or minus, right side simple). -/
inductive Address where
  | simple (a : SAddr)
  | comp (op : Char) (a1 a2 : Address)
  | add (op : Char) (a1 : Address) (a2 : SAddr)
  deriving DecidableEq

namespace Address

/-- The To method: a1,a2. -/
def To (a : Address) (a2 : Address) : Address := .comp ',' a a2

/-- The Then method: a1;a2. -/
def Then (a : Address) (a2 : Address) : Address := .comp ';' a a2

/-- The Plus method: a1+a2. -/
def Plus (a : Address) (a2 : SAddr) : Address := .add '+' a a2

/-- The Minus method: a1-a2. -/
def Minus (a : Address) (a2 : SAddr) : Address := .add '-' a a2

end Address

/-- The decimal digits of a natural number, as strconv renders them. -/
def natDigits (n : ℕ) : List Char := Nat.toDigits 10 n

/-- The String methods of the simple address forms: "." and "$"; "'" plus
the mark rune; "#n" (or "-#n" when negative); the line number (with a
leading minus when reversed); a regexp address prints its stored
delimited expression. -/
def saddrString : SAddr → List Char
  | .dot => ['.']
  | .ends => ['$']
  | .mark r => [squote, r]
  | .runeA n => if n < 0 then '-' :: '#' :: natDigits (-n).toNat else '#' :: natDigits n.toNat
  | .lineA neg n => if neg then '-' :: natDigits n else natDigits n
  | .reA _ re => re

/-- The String methods of compoundAddr and addAddr: left, operator,
right. -/
def addrString : Address → List Char
  | .simple a => saddrString a
  | .comp op a1 a2 => addrString a1 ++ op :: addrString a2
  | .add op a1 a2 => addrString a1 ++ op :: saddrString a2

/-- isMarkRune from the source: a lower-case or upper-case letter. -/
def isMarkRune (r : Char) : Bool :=
  ('a' ≤ r && r ≤ 'z') || ('A' ≤ r && r ≤ 'Z')

/-- The runes that can start a simple address: "#/?$.'" and the digits. -/
def simpleFirst : List Char :=
  ['#', '/', '?', '$', '.', squote, '0', '1', '2', '3', '4', '5', '6', '7', '8', '9']

/-- withTrailingDelim from the source: copy the expression, appending the
delimiter after the last rune unless that rune already is an unescaped
delimiter beyond position 0. -/
def wtdGo (d : Char) : List Char → Bool → Bool → List Char
  | [], _, _ => []
  | [ru], esc, isFirst => if isFirst || ru != d || esc then [ru, d] else [ru]
  | ru :: rest, esc, _ => ru :: wtdGo d rest (!esc && ru == '\\') false

/-- withTrailingDelim from the source (the delimiter is the first rune). -/
def withTrailingDelim (re : List Char) : List Char :=
  match re with
  | [] => []
  | d :: _ => wtdGo d re false true

/-- The Regexp constructor from the source: an empty expression becomes
the bare slash delimiter; a question-mark delimiter marks a reverse
match; the stored text always carries its trailing delimiter. -/
def RegexpA (re : List Char) : SAddr :=
  match (if re.isEmpty then ['/'] else re) with
  | d :: rest => .reA (d == '?') (withTrailingDelim (d :: rest))
  | [] => .reA false []

/-- Modelled from the spec: the scan of parseRegexp (its body is not
under src/) — after the delimiter, consume up to and including the next
unescaped delimiter, stopping without consuming at an unescaped newline
or end of input. -/
def parseRegexpGo (d : Char) : List Char → Bool → List Char × List Char
  | [], _ => ([], [])
  | c :: rest, esc =>
    if c == '\n' then ([], c :: rest)
    else if c == d && !esc then ([c], rest)
    else
      let r := parseRegexpGo d rest (!esc && c == '\\')
      (c :: r.1, r.2)

/-- Modelled from the spec: parseRegexp — the first rune is the
delimiter; returns the consumed expression (delimiter included) and the
remaining runes. -/
def parseRegexpSpec (rs : List Char) : List Char × List Char :=
  match rs with
  | [] => ([], [])
  | d :: rest =>
    let r := parseRegexpGo d rest false
    (d :: r.1, r.2)

/-- parseMarkAddr from the source: after the quote, skip horizontal
whitespace; the next rune must be a mark rune [a-zA-Z], else the bad-mark
error (note that the dot mark, valid at evaluation, is rejected here). -/
def parseMarkAddr (rs : List Char) : Option SAddr × List Char × Option Err :=
  match (rs.drop 1).dropWhile (fun c => c.isWhitespace && c != '\n') with
  | [] => (none, [], some .badMarkEnd)
  | c :: rest => if isMarkRune c then (some (.mark c), rest, none)
                 else (none, c :: rest, some (.badMark c))

/-- The numeric value of a digit string. -/
def digitsToNat (ds : List Char) : ℕ :=
  ds.foldl (fun acc c => 10 * acc + (c.toNat - 48)) 0

/-- parseRuneAddr from the source: the digits after the hash (defaulting
to 1); the range error models strconv.ParseInt overflow, which clamps to
the maximum int64. -/
def parseRuneAddr (rs : List Char) : Option SAddr × List Char × Option Err :=
  let ds := (rs.drop 1).takeWhile Char.isDigit
  let rest := (rs.drop 1).dropWhile Char.isDigit
  let v : ℕ := if ds.isEmpty then 1 else digitsToNat ds
  if v < 2 ^ 63 then (some (.runeA (v : ℤ)), rest, none)
  else (some (.runeA (2 ^ 63 - 1)), rest, some .rangeErr)

/-- parseLineAddr from the source: the leading digits as a line number;
the range error models strconv.Atoi overflow. -/
def parseLineAddr (rs : List Char) : Option SAddr × List Char × Option Err :=
  let ds := rs.takeWhile Char.isDigit
  let rest := rs.dropWhile Char.isDigit
  let v := digitsToNat ds
  if v < 2 ^ 63 then (some (.lineA false v), rest, none)
  else (some (.lineA false (2 ^ 63 - 1)), rest, some .rangeErr)

/-- parseSimpleAddr from the source: dispatch on the first rune — mark,
rune, line, regexp, end, dot — skipping horizontal whitespace, returning
no address when the rune starts no simple address. -/
def parseSimpleAddr : List Char → Option SAddr × List Char × Option Err
  | [] => (none, [], none)
  | r :: rest =>
    if r == squote then parseMarkAddr (r :: rest)
    else if r == '#' then parseRuneAddr (r :: rest)
    else if r.isDigit then parseLineAddr (r :: rest)
    else if r == '/' || r == '?' then
      let p := parseRegexpSpec (r :: rest)
      (some (RegexpA p.1), p.2, none)
    else if r == '$' then (some .ends, rest, none)
    else if r == '.' then (some .dot, rest, none)
    else if r.isWhitespace && r != '\n' then parseSimpleAddr rest
    else (none, r :: rest, none)

/-- parseCompoundAddr from the source, with fuel bounding the loop: build
the address left to right — an adjacent simple address is joined with an
implicit Plus; the plus and minus operators default a missing left side to
dot and a missing right side to line 1; comma and semicolon default a
missing left side to line 0 and a missing right side to the end address;
horizontal whitespace is skipped; anything else ends the address. -/
def parseCompoundAddr (fuel : ℕ) (a1 : Option Address) (rs : List Char) :
    Option Address × List Char × Option Err :=
  match fuel with
  | 0 => (a1, rs, some .fuelOut)
  | fuel + 1 =>
    match rs with
    | [] => (a1, [], none)
    | r :: rest =>
      if simpleFirst.contains r then
        match parseSimpleAddr (r :: rest) with
        | (_, rs', some err) => (none, rs', some err)
        | (some a2, rs', none) =>
          parseCompoundAddr fuel
            (some (match a1 with
              | some a => a.Plus a2
              | none => .simple a2)) rs'
        | (none, rs', none) => (a1, rs', none)
      else if r == '+' || r == '-' then
        let a1' := a1.getD (.simple .dot)
        match parseSimpleAddr rest with
        | (_, rs', some err) => (none, rs', some err)
        | (a2opt, rs', none) =>
          let a2 := a2opt.getD (.lineA false 1)
          parseCompoundAddr fuel
            (some (if r == '+' then a1'.Plus a2 else a1'.Minus a2)) rs'
      else if r == ',' || r == ';' then
        let a1' := a1.getD (.simple (.lineA false 0))
        match parseCompoundAddr fuel none rest with
        | (_, rs', some err) => (none, rs', some err)
        | (a2opt, rs', none) =>
          let a2 := a2opt.getD (.simple .ends)
          parseCompoundAddr fuel
            (some (if r == ',' then a1'.To a2 else a1'.Then a2)) rs'
      else if r.isWhitespace && r != '\n' then parseCompoundAddr fuel a1 rest
      else (a1, r :: rest, none)

/-- Addr from the source: parse a compound address and trim one
terminating newline.  The fuel rs.length + 1 suffices because every loop
iteration consumes at least one rune. -/
def AddrParse (rs : List Char) : Option Address × List Char × Option Err :=
  match parseCompoundAddr (rs.length + 1) none rs with
  | (a, rs', err) =>
    (a, (match rs' with | c :: t => if c = '\n' then t else rs' | [] => []), err)

/-- C9 (code bug): the mark address for the dot rune is constructible and
documented as valid (Mark's comment allows [a-zA-Z.], and markAddr's
evaluation accepts the dot mark), and Address.String promises a string
that re-parses to an equivalent address; but Mark of the dot rune renders
as a quote followed by a dot, which parseMarkAddr rejects with the
bad-mark error because isMarkRune excludes the dot.  So parse(print(A))
fails for that documented address instead of returning an equivalent
one. -/
theorem addr_mark_dot_string_unparsable :
    saddrString (SAddr.mark '.') = [squote, '.'] ∧
    AddrParse (saddrString (SAddr.mark '.')) = (none, ['.'], some (Err.badMark '.')) := by
  constructor <;> rfl

end T
